import Mathlib

/-!
Verification of the oxcable dynamics-analysis script.

The repository's visible source (`scripts/dynamics_analysis.py`) is glue:
it loads three wav files, normalizes the int16 samples by dividing by
32767.0, and plots `fitEnvelope` of each signal.  The envelope extractor
itself (`fitEnvelope`, imported from `fit_envelope`) is not part of the
visible source, so it is modelled here from the specification: eager
validation of finiteness, rectification to absolute values, and a
centered moving-average smoothing pass with a configurable window radius
whose boundary windows are shortened/clamped so the length is preserved.
Real sample values are embedded as rationals; non-finite values (NaN and
the two infinities) are explicit constructors of the sample type.
-/

/-- Modelled from the spec: a floating-point sample supplied to the
envelope extractor.  It is either a finite real value (embedded as a
rational) or one of the non-finite IEEE values NaN, +Infinity,
-Infinity, which the extractor must reject. -/
inductive Sample where
  | val (q : ℚ)
  | nan
  | posInfinity
  | negInfinity
deriving DecidableEq, Repr

/-- Modelled from the spec: whether a sample is a finite value. -/
def Sample.isFinite : Sample → Bool
  | .val _ => true
  | _ => false

/-- Elementwise negation of a sample (the sign-flipped counterpart used
by the sign-invariance property). -/
def Sample.neg : Sample → Sample
  | .val q => .val (-q)
  | .nan => .nan
  | .posInfinity => .negInfinity
  | .negInfinity => .posInfinity

/-- Modelled from the spec: rectification maps a finite sample to its
absolute value.  (It is only ever applied after validation, so the
non-finite cases are arbitrary; they return 0.) -/
def Sample.rectify : Sample → ℚ
  | .val q => if q < 0 then -q else q
  | _ => 0

/-- Modelled from the spec: the single error condition of the extractor,
raised when any input value is non-finite. -/
inductive EnvelopeError where
  | invalidInput
deriving DecidableEq, Repr

deriving instance DecidableEq for Except

/-- Boolean test that an extractor result is a success. -/
def isOkResult : Except EnvelopeError (List ℚ) → Bool
  | .ok _ => true
  | .error _ => false

/-- Average of the window of `len` entries of `r` starting at index `lo`
(shortened at the right edge automatically by `take`). -/
def windowAvg (r : List ℚ) (lo len : ℕ) : ℚ :=
  ((r.drop lo).take len).sum / (((r.drop lo).take len).length : ℚ)

/-- Modelled from the spec: the smoothing pass.  A centered moving
average of window radius `w`: entry `i` is the average of the entries at
indices `max (i-w) 0 .. min (i+w) (length-1)`, so boundary windows are
shortened/clamped rather than dropped and the length is preserved. -/
def movingAverage (w : ℕ) (r : List ℚ) : List ℚ :=
  (List.range r.length).map (fun i =>
    windowAvg r (i - w) (min (i + w) (r.length - 1) + 1 - (i - w)))

/-- Modelled from the spec: `extractEnvelope`, the CORE transformation
(the repository's `fitEnvelope` is not in the visible source).  It
validates eagerly that every sample is finite, failing with
`InvalidInput` otherwise, then rectifies each sample to its absolute
value and smooths the rectified sequence with a moving average of
configurable radius `w` (`w = 0` means no smoothing). -/
def extractEnvelope (w : ℕ) (samples : List Sample) :
    Except EnvelopeError (List ℚ) :=
  if samples.all Sample.isFinite then
    .ok (movingAverage w (samples.map Sample.rectify))
  else
    .error .invalidInput

/-- Arithmetic mean of a list of rationals. -/
def listMean (l : List ℚ) : ℚ := l.sum / (l.length : ℚ)

/-- Population variance of a list of rationals. -/
def listVariance (l : List ℚ) : ℚ :=
  ((l.map (fun x => (x - listMean l) ^ 2)).sum) / (l.length : ℚ)

/-- From the source (`dynamics_analysis.py`): the fixed ordered list of
dynamics-processor names. -/
def dynamics : List String := ["compressor", "limiter", "noise_gate"]

/-- From the source: normalization of one raw integer sample, dividing
by 32767.0. -/
def normalizeSample (s : ℤ) : ℚ := (s : ℚ) / 32767

/-- From the source: `load_audio_data`.  It builds the filename list
from `dynamics`, then reads each file and normalizes the samples.  The
wav-file reader is external I/O and is passed in as an oracle. -/
def load_audio_data (read : String → List ℤ) :
    List String × List (List ℚ) :=
  let filenames := dynamics.map (fun d => "../wav/test_" ++ d ++ ".wav")
  (filenames, filenames.map (fun f => (read f).map normalizeSample))

/-- A sign-alternating (oscillating) test input used for the smoothing
analysis. -/
def oscInput : List Sample :=
  [.val 1, .val (-2), .val 1, .val (-1), .val 2]

theorem length_movingAverage (w : ℕ) (r : List ℚ) :
    (movingAverage w r).length = r.length := by
  simp [movingAverage]

/-- C1: the extractor succeeds on every all-finite input and the output
has the same length as the input; the empty input yields the empty
output. -/
theorem extractEnvelope_length :
    (∀ (w : ℕ) (s : List Sample), s.all Sample.isFinite = true →
      (extractEnvelope w s).map List.length = .ok s.length) ∧
    ∀ w : ℕ, extractEnvelope w [] = .ok ([] : List ℚ) := by
  constructor
  · intro w s h
    simp [extractEnvelope, h, Except.map, length_movingAverage]
  · intro w
    simp [extractEnvelope, movingAverage]

theorem extractEnvelope_length_witness :
    ([Sample.val 2, Sample.val (-3)].all Sample.isFinite = true) ∧
    (extractEnvelope 1 [Sample.val 2, Sample.val (-3)]).map List.length
      = .ok 2 :=
  ⟨by decide, extractEnvelope_length.1 1 [Sample.val 2, Sample.val (-3)]
    (by decide)⟩

theorem Sample.rectify_val (q : ℚ) : Sample.rectify (.val q) = |q| := by
  simp only [Sample.rectify]
  split
  · rename_i h
    rw [abs_of_neg h]
  · rename_i h
    rw [abs_of_nonneg (le_of_not_lt h)]

theorem Sample.rectify_nonneg (x : Sample) : 0 ≤ x.rectify := by
  cases x with
  | val q => rw [Sample.rectify_val]; exact abs_nonneg q
  | nan => exact le_refl 0
  | posInfinity => exact le_refl 0
  | negInfinity => exact le_refl 0

theorem movingAverage_nonneg (w : ℕ) (r : List ℚ)
    (h : ∀ x ∈ r, 0 ≤ x) : ∀ q ∈ movingAverage w r, 0 ≤ q := by
  intro q hq
  simp only [movingAverage, List.mem_map, List.mem_range] at hq
  obtain ⟨i, _, rfl⟩ := hq
  apply div_nonneg
  · apply List.sum_nonneg
    intro x hx
    exact h x (List.drop_subset _ _ (List.take_subset _ _ hx))
  · exact Nat.cast_nonneg _

/-- C2: every element of a successfully extracted envelope is
non-negative, for every input and every smoothing radius. -/
theorem extractEnvelope_nonneg (w : ℕ) (s : List Sample) (out : List ℚ)
    (h : extractEnvelope w s = .ok out) : ∀ q ∈ out, 0 ≤ q := by
  unfold extractEnvelope at h
  by_cases hf : s.all Sample.isFinite
  · simp only [hf, if_true, Except.ok.injEq] at h
    subst h
    apply movingAverage_nonneg
    intro x hx
    simp only [List.mem_map] at hx
    obtain ⟨y, _, rfl⟩ := hx
    exact Sample.rectify_nonneg y
  · simp [hf] at h

theorem extractEnvelope_nonneg_witness :
    (extractEnvelope 1 [Sample.val 1, Sample.val (-2)] = .ok [3/2, 3/2]) ∧
    (0 : ℚ) ≤ 3/2 :=
  ⟨by norm_num [extractEnvelope, movingAverage, windowAvg, Sample.rectify,
     List.range_succ, Sample.isFinite],
   extractEnvelope_nonneg 1 [Sample.val 1, Sample.val (-2)] [3/2, 3/2]
     (by norm_num [extractEnvelope, movingAverage, windowAvg, Sample.rectify,
       List.range_succ, Sample.isFinite]) (3/2) (by simp)⟩

theorem Sample.isFinite_neg (x : Sample) : x.neg.isFinite = x.isFinite := by
  cases x <;> rfl

theorem Sample.rectify_neg (x : Sample) : x.neg.rectify = x.rectify := by
  cases x with
  | val q => simp only [Sample.neg, Sample.rectify_val, abs_neg]
  | nan => rfl
  | posInfinity => rfl
  | negInfinity => rfl

/-- C3: the extractor is sign-invariant: the elementwise-negated input
produces exactly the same result, for every smoothing radius. -/
theorem extractEnvelope_sign_invariant (w : ℕ) (s : List Sample) :
    extractEnvelope w (s.map Sample.neg) = extractEnvelope w s := by
  unfold extractEnvelope
  have h1 : (s.map Sample.neg).all Sample.isFinite = s.all Sample.isFinite := by
    simp [List.all_map, Function.comp_def, Sample.isFinite_neg]
  have h2 : (s.map Sample.neg).map Sample.rectify = s.map Sample.rectify := by
    simp [List.map_map, Function.comp_def, Sample.rectify_neg]
  rw [h1, h2]

theorem movingAverage_zero (r : List ℚ) : movingAverage 0 r = r := by
  apply List.ext_getElem
  · simp [movingAverage]
  · intro i h1 h2
    simp only [movingAverage, List.getElem_map, List.getElem_range]
    have hi : i ≤ r.length - 1 := Nat.le_pred_of_lt h2
    have hmin : min (i + 0) (r.length - 1) = i := by
      simp [Nat.min_eq_left hi]
    have h3 : i + 1 - i = 1 := by omega
    rw [Nat.sub_zero, hmin, h3]
    have hwin : (r.drop i).take 1 = [r[i]] := by
      rw [List.drop_eq_getElem_cons h2]
      rfl
    unfold windowAvg
    rw [hwin]
    norm_num

/-- C4: with the smoothing radius configured to 0 (no smoothing) the
extractor returns exactly the elementwise absolute value of the input;
in particular the alternating input 1, -1, 1, -1 yields 1, 1, 1, 1. -/
theorem extractEnvelope_no_smoothing :
    (∀ s : List Sample, s.all Sample.isFinite = true →
      extractEnvelope 0 s = .ok (s.map Sample.rectify)) ∧
    extractEnvelope 0
        [Sample.val 1, Sample.val (-1), Sample.val 1, Sample.val (-1)]
      = .ok [1, 1, 1, 1] := by
  constructor
  · intro s h
    simp [extractEnvelope, h, movingAverage_zero]
  · norm_num [extractEnvelope, movingAverage, windowAvg, Sample.rectify,
      List.range_succ, Sample.isFinite]

theorem extractEnvelope_no_smoothing_witness :
    ([Sample.val (-5)].all Sample.isFinite = true) ∧
    extractEnvelope 0 [Sample.val (-5)]
      = .ok ([Sample.val (-5)].map Sample.rectify) :=
  ⟨by decide, extractEnvelope_no_smoothing.1 [Sample.val (-5)] (by decide)⟩

/-- C5: the extractor fails with `InvalidInput` exactly when some input
value is non-finite; on an all-finite input the call succeeds (so no
failure, and on failure no output is produced since the result is the
bare error); concretely any call on 0.5, NaN, 0.2 fails with
`InvalidInput`. -/
theorem extractEnvelope_invalidInput :
    (∀ (w : ℕ) (s : List Sample),
      extractEnvelope w s = .error .invalidInput ↔
        ∃ x ∈ s, x.isFinite = false) ∧
    (∀ (w : ℕ) (s : List Sample), s.all Sample.isFinite = true →
      isOkResult (extractEnvelope w s) = true) ∧
    ∀ w : ℕ,
      extractEnvelope w [Sample.val (1/2), Sample.nan, Sample.val (1/5)]
        = .error .invalidInput := by
  refine ⟨?_, ?_, ?_⟩
  · intro w s
    unfold extractEnvelope
    by_cases hf : s.all Sample.isFinite
    · simp only [hf, if_true]
      constructor
      · intro h
        cases h
      · rintro ⟨x, hx, hfx⟩
        have := List.all_eq_true.mp hf x hx
        rw [hfx] at this
        cases this
    · simp only [hf, if_false]
      constructor
      · intro _
        have := (Bool.eq_false_iff.mpr (fun hc => hf hc))
        rw [List.all_eq_true] at hf
        push_neg at hf
        obtain ⟨x, hx, hfx⟩ := hf
        exact ⟨x, hx, Bool.eq_false_iff.mpr hfx⟩
      · intro _
        rfl
  · intro w s h
    simp [extractEnvelope, h, isOkResult]
  · intro w
    have hc : ([Sample.val (1/2), Sample.nan, Sample.val (1/5)].all
        Sample.isFinite) = false := by decide
    unfold extractEnvelope
    rw [hc]
    rfl

theorem extractEnvelope_invalidInput_witness :
    ([Sample.val 3].all Sample.isFinite = true) ∧
    isOkResult (extractEnvelope 2 [Sample.val 3]) = true :=
  ⟨by decide, extractEnvelope_invalidInput.2.1 2 [Sample.val 3] (by decide)⟩

theorem movingAverage_replicate_zero (w n : ℕ) :
    movingAverage w (List.replicate n (0 : ℚ))
      = List.replicate n (0 : ℚ) := by
  have hw : ∀ lo len, windowAvg (List.replicate n (0 : ℚ)) lo len = 0 := by
    intro lo len
    unfold windowAvg
    rw [List.drop_replicate, List.take_replicate, List.sum_replicate,
      smul_zero, zero_div]
  unfold movingAverage
  simp only [hw, List.length_replicate]
  rw [List.map_const', List.length_range]

/-- C6: the all-zero (silent) input of length three produces the all-zero
envelope for every smoothing radius. -/
theorem extractEnvelope_silence (w : ℕ) :
    extractEnvelope w [Sample.val 0, Sample.val 0, Sample.val 0]
      = .ok [0, 0, 0] := by
  have h1 : [Sample.val 0, Sample.val 0, Sample.val 0].map Sample.rectify
      = List.replicate 3 (0 : ℚ) := by
    norm_num [Sample.rectify, List.replicate]
  have h2 : ([Sample.val 0, Sample.val 0, Sample.val 0].all
      Sample.isFinite) = true := by decide
  simp only [extractEnvelope, h2, if_true, h1, movingAverage_replicate_zero]
  rfl

/-- C7: the extractor is deterministic: two calls with equal smoothing
radii and equal input sequences return equal results.  (It is modelled
as, and the spec demands, a pure function, so there is no state a call
could modify.) -/
theorem extractEnvelope_deterministic (w₁ w₂ : ℕ) (s₁ s₂ : List Sample)
    (hw : w₁ = w₂) (hs : s₁ = s₂) :
    extractEnvelope w₁ s₁ = extractEnvelope w₂ s₂ := by
  rw [hw, hs]

theorem extractEnvelope_deterministic_witness :
    ((1 : ℕ) = 1) ∧ ([Sample.val 2] = [Sample.val 2]) ∧
    extractEnvelope 1 [Sample.val 2] = extractEnvelope 1 [Sample.val 2] :=
  ⟨rfl, rfl, extractEnvelope_deterministic 1 1 [Sample.val 2] [Sample.val 2]
    rfl rfl⟩

/-- C8 counterexample: on the sign-alternating (oscillating) input
1, -2, 1, -1, 2, increasing the smoothing radius from 1 to 2 strictly
increases the variance of the output (1/150 grows to 26/3750), so
increasing the smoothing parameter does not always leave the variance
unchanged or smaller. -/
theorem extractEnvelope_variance_not_monotone :
    extractEnvelope 1 oscInput = .ok [3/2, 4/3, 4/3, 4/3, 3/2] ∧
    extractEnvelope 2 oscInput = .ok [4/3, 5/4, 7/5, 3/2, 4/3] ∧
    listVariance [3/2, 4/3, 4/3, 4/3, 3/2]
      < listVariance [4/3, 5/4, 7/5, 3/2, 4/3] := by
  refine ⟨?_, ?_, ?_⟩ <;>
    norm_num [extractEnvelope, movingAverage, windowAvg, Sample.rectify,
      Sample.isFinite, List.range_succ, oscInput, listVariance, listMean]

theorem movingAverage_of_large_radius (w : ℕ) (r : List ℚ)
    (h : r.length - 1 ≤ w) :
    movingAverage w r = List.replicate r.length (listMean r) := by
  apply List.ext_getElem
  · simp [movingAverage]
  · intro i h1 h2
    simp only [movingAverage, List.getElem_map, List.getElem_range,
      List.getElem_replicate]
    have hn : i < r.length := by
      rw [length_movingAverage] at h1
      exact h1
    have hlo : i - w = 0 :=
      Nat.sub_eq_zero_of_le (le_trans (Nat.le_pred_of_lt hn) h)
    have hhi : min (i + w) (r.length - 1) = r.length - 1 :=
      Nat.min_eq_right (le_trans h (Nat.le_add_left w i))
    rw [hlo, hhi]
    have hlen : r.length - 1 + 1 - 0 = r.length := by omega
    rw [hlen]
    unfold windowAvg listMean
    rw [List.drop_zero, List.take_length]

/-- C8 amended: once the smoothing radius reaches the input length minus
one, every window covers the whole rectified sequence, so the output is
exactly the constant sequence holding the mean of the rectified input
(variance zero) and stays that same constant sequence for every larger
radius; variance monotonicity at every step does not hold. -/
theorem extractEnvelope_saturated_smoothing :
    ∀ (w : ℕ) (s : List Sample), s.all Sample.isFinite = true →
      s.length - 1 ≤ w →
      extractEnvelope w s
        = .ok (List.replicate s.length
            (listMean (s.map Sample.rectify))) := by
  intro w s hf hw
  have hlen : (s.map Sample.rectify).length - 1 ≤ w := by
    rw [List.length_map]
    exact hw
  simp [extractEnvelope, hf, movingAverage_of_large_radius w _ hlen]

theorem extractEnvelope_saturated_smoothing_witness :
    (oscInput.all Sample.isFinite = true) ∧ (oscInput.length - 1 ≤ 4) ∧
    extractEnvelope 4 oscInput
      = .ok (List.replicate oscInput.length
          (listMean (oscInput.map Sample.rectify))) :=
  ⟨by decide, by decide,
   extractEnvelope_saturated_smoothing 4 oscInput (by decide) (by decide)⟩

/-- C9: `load_audio_data` divides raw samples by 32767, so every int16
sample (between -32768 and 32767) normalizes into the interval from
-32768/32767 to 1, and the most negative representable sample -32768
maps strictly below -1: the normalized signal is not guaranteed to lie
within -1 to 1. -/
theorem normalizeSample_range :
    (∀ s : ℤ, -32768 ≤ s → s ≤ 32767 →
      (-32768 : ℚ) / 32767 ≤ normalizeSample s ∧ normalizeSample s ≤ 1) ∧
    normalizeSample (-32768) < -1 := by
  constructor
  · intro s h1 h2
    unfold normalizeSample
    constructor
    · have hc : ((-32768 : ℚ)) ≤ (s : ℚ) := by exact_mod_cast h1
      exact (div_le_div_iff_of_pos_right (by norm_num)).mpr hc
    · rw [div_le_one (by norm_num)]
      exact_mod_cast h2
  · norm_num [normalizeSample]

theorem normalizeSample_range_witness :
    ((-32768 : ℤ) ≤ 0) ∧ ((0 : ℤ) ≤ 32767) ∧
    ((-32768 : ℚ) / 32767 ≤ normalizeSample 0 ∧ normalizeSample 0 ≤ 1) :=
  ⟨by decide, by decide, normalizeSample_range.1 0 (by decide) (by decide)⟩

/-- C10: `load_audio_data` returns two length-3 lists: the filenames are
exactly the three names built from the fixed dynamics list in order, and
the signals list is exactly the filenames list mapped through
read-then-normalize, so filenames and signals stay index-aligned. -/
theorem load_audio_data_aligned :
    ∀ read : String → List ℤ,
      (load_audio_data read).1.length = 3 ∧
      (load_audio_data read).2.length = 3 ∧
      (load_audio_data read).1
        = ["../wav/test_compressor.wav", "../wav/test_limiter.wav",
           "../wav/test_noise_gate.wav"] ∧
      (load_audio_data read).2
        = (load_audio_data read).1.map
            (fun f => (read f).map normalizeSample) := by
  intro read
  exact ⟨rfl, rfl, rfl, rfl⟩
